import Mathlib

/-!
Shallow embedding of `pyCellProfiler/cellprofiler/modules/identify.py`,
the intensity-threshold engine of CellProfiler's identify modules, over
exact rationals.  Machine floats are modelled as `ℚ`.  Transcendental
ingredients (square roots, base-2 logarithms, the external
`cpmath.otsu.otsu` routine, the unbounded EM / Ridler-Calvard iterations
and the external `smooth_with_noise` helper, none of which are part of
this repository slice) enter as explicit function parameters, so every
theorem quantifies over them; the guards, the dispatch, the clamps and
the histogram bookkeeping are embedded exactly as the source writes them.
-/

namespace CellProfiler

/-- Python `max(a, b)`: returns `b` exactly when `b > a`. -/
def pyMax (a b : ℚ) : ℚ := if b > a then b else a

/-- Python `min(a, b)`: returns `b` exactly when `b < a`. -/
def pyMin (a b : ℚ) : ℚ := if b < a then b else a

/-- numpy.min of a 1-D sample (numpy rejects the empty array; 0 is a dummy). -/
def npMin : List ℚ → ℚ
  | [] => 0
  | x :: xs => xs.foldl min x

/-- numpy.max of a 1-D sample (numpy rejects the empty array; 0 is a dummy). -/
def npMax : List ℚ → ℚ
  | [] => 0
  | x :: xs => xs.foldl max x

/-- A 2-D image: `m` rows, `n` columns of rational intensities. -/
structure Img where
  m : ℕ
  n : ℕ
  px : ℕ → ℕ → ℚ

/-- A boolean mask over pixel coordinates. -/
abbrev Mask := ℕ → ℕ → Bool

/-- A label matrix: 0 is background, positive values identify objects. -/
abbrev Labels := ℕ → ℕ → ℕ

/-- `image[mask]`: row-major flattening of the pixels whose mask bit is set. -/
def maskedSample (img : Img) (mask : Mask) : List ℚ :=
  (((List.range img.m).bind fun r => (List.range img.n).map fun c => (r, c)).filterMap
    fun p => if mask p.1 p.2 then some (img.px p.1 p.2) else none)

/-- The configuration surface of the engine, with the source's setting names. -/
structure ThresholdConfig where
  threshold_method : String
  manual_threshold : ℚ
  threshold_range_min : ℚ
  threshold_range_max : ℚ
  threshold_correction_factor : ℚ
  object_fraction : ℚ

/-- Python `s.split(' ')` on a list of characters: single-space separator,
empty fields kept, exactly as Python's `str.split` with an explicit separator. -/
def splitSpace : List Char → List (List Char)
  | [] => [[]]
  | c :: rest =>
    let r := splitSpace rest
    if c = ' ' then [] :: r
    else
      match r with
      | [] => [[c]]
      | h :: t => (c :: h) :: t

/-- `self.threshold_method.value.split(' ')` (lines 421 and 428). -/
def methodParts (cfg : ThresholdConfig) : List String :=
  (splitSpace cfg.threshold_method.toList).map fun cs => String.mk cs

/-- `parts[0]`: the thresholding algorithm name (`get_threshold_algorithm`). -/
def threshold_algorithm (cfg : ThresholdConfig) : String := (methodParts cfg).headD ""

/-- `parts[1]`: the spatial modifier (`get_threshold_modifier`); `none` models
the IndexError Python raises when the method string has no second word. -/
def threshold_modifier (cfg : ThresholdConfig) : Option String := (methodParts cfg).get? 1

/-- The Python exceptions the threshold engine can surface. -/
inductive PyErr where
  | notImplementedError (msg : String)
  | attributeError (msg : String)
  | indexError
deriving DecidableEq

/-- Abstract numerical ingredients: the external Otsu routine and the bodies
of the algorithms whose post-guard computation is iterative or transcendental
(EM mixture fitting, trimmed statistics, log-domain bisection, entropy split).
Every theorem about the engine quantifies over these. -/
structure Oracles where
  otsu : List ℚ → ℚ → ℚ → ℚ
  mogBody : ℚ → List ℚ → ℚ
  robustBody : List ℚ → ℚ
  ridlerBody : List ℚ → ℚ
  kapurBody : List ℚ → ℚ

/-- `Identify.get_mog_threshold` (lines 175-294): the two degenerate-sample
guards are embedded exactly (note the size guard precedes the constant-sample
guard and returns 1, and its bound is `3 / min(object_fraction,
background_fraction)`); the EM fitting after them, an unbounded `while` loop
over Gaussian pdfs, is the abstract `o.mogBody`. -/
def get_mog_threshold (o : Oracles) (object_fraction : ℚ) (sample : List ℚ) : ℚ :=
  let pixel_count := sample.length
  let background_fraction := 1 - object_fraction
  if (pixel_count : ℚ) < 3 / min object_fraction background_fraction then 1
  else if npMax sample = npMin sample then sample.headD 0
  else o.mogBody object_fraction sample

/-- Bin index of `scipy.ndimage.histogram`: `bins` equal bins spanning
`[lo, hi]`; values whose bin falls outside `0..bins-1` are ignored. -/
def histBin (lo hi : ℚ) (bins : ℕ) (v : ℚ) : Option ℕ :=
  let i := ⌊(v - lo) * bins / (hi - lo)⌋
  if 0 ≤ i ∧ i < bins then some i.toNat else none

/-- `scipy.ndimage.histogram(vals, lo, hi, bins)` as a list of bin counts. -/
def histogramCounts (lo hi : ℚ) (bins : ℕ) (vals : List ℚ) : List ℕ :=
  (List.range bins).map fun k => vals.countP fun v => histBin lo hi bins v == some k

/-- Maximum of a list of naturals (0 on the empty list). -/
def npMaxN (l : List ℕ) : ℕ := l.foldr max 0

/-- `numpy.argmax`: index of the first occurrence of the maximum. -/
def npArgmax : List ℕ → ℕ
  | [] => 0
  | x :: xs => if npMaxN xs > x then npArgmax xs + 1 else 0

/-- `Identify.get_background_threshold` (lines 296-316), fully embedded: twice
the modal bin centre of a 256-bin histogram of the intensities strictly
between 0.02 and 0.98. -/
def get_background_threshold (sample : List ℚ) : ℚ :=
  if sample.length = 0 then 0
  else if npMin sample = npMax sample then sample.headD 0
  else
    let cropped := sample.filter fun v => decide (2/100 < v) && decide (v < 98/100)
    let h := histogramCounts 0 1 256 cropped
    let index := npArgmax h
    (index : ℚ) / 255 * 2

/-- `Identify.get_robust_background_threshold` (lines 318-336): the guards are
embedded exactly; the trimmed mean + 2·std tail is the abstract `o.robustBody`
here, and `robust_background_model` below embeds that tail in full (including
its NaN behaviour on small samples). -/
def get_robust_background_threshold (o : Oracles) (sample : List ℚ) : ℚ :=
  if sample.length < 3 then 0
  else if npMin sample = npMax sample then sample.headD 0
  else o.robustBody sample

/-- `Identify.get_ridler_calvard_threshold` (lines 338-372): guards embedded
exactly; the log-domain fixed-point iteration is the abstract `o.ridlerBody`. -/
def get_ridler_calvard_threshold (o : Oracles) (sample : List ℚ) : ℚ :=
  if sample.length < 3 then 0
  else if npMin sample = npMax sample then sample.headD 0
  else o.ridlerBody sample

/-- `Identify.get_kapur_threshold` (lines 374-412): guards embedded exactly;
the dithered log-histogram entropy split is the abstract `o.kapurBody` (its
denominators are embedded separately as `kapurLoSum` / `kapurHiSum`). -/
def get_kapur_threshold (o : Oracles) (sample : List ℚ) : ℚ :=
  if sample.length < 3 then 0
  else if npMin sample = npMax sample then sample.headD 0
  else o.kapurBody sample

/-- Modelled from the spec: the external `cellprofiler.cpmath.otsu.otsu`
routine is not under src/; spec §4.2 subjects every algorithm of the Global
Algorithm Library, Otsu included, to the shared degenerate-input policy
(fewer than 3 elements, or min == max, yields the trivial answer), and
otherwise delegates to the external single-threshold search bounded by
`[range.min, range.max]`, abstract here. -/
def otsu (o : Oracles) (sample : List ℚ) (lo hi : ℚ) : ℚ :=
  if sample.length < 3 then 0
  else if npMin sample = npMax sample then sample.headD 0
  else o.otsu sample lo hi

/-- The function the six-way dispatch of `get_global_threshold` (lines 91-108)
selects for the configured algorithm name, applied to the masked sample;
`none` for an unknown name. -/
def algFn (o : Oracles) (cfg : ThresholdConfig) : Option (List ℚ → ℚ) :=
  if threshold_algorithm cfg = "Otsu" then
    some fun s => otsu o s cfg.threshold_range_min cfg.threshold_range_max
  else if threshold_algorithm cfg = "MoG" then
    some fun s => get_mog_threshold o cfg.object_fraction s
  else if threshold_algorithm cfg = "Background" then
    some get_background_threshold
  else if threshold_algorithm cfg = "RobustBackground" then
    some fun s => get_robust_background_threshold o s
  else if threshold_algorithm cfg = "RidlerCalvard" then
    some fun s => get_ridler_calvard_threshold o s
  else if threshold_algorithm cfg = "Kapur" then
    some fun s => get_kapur_threshold o s
  else none

/-- The AttributeError message Python produces for `(some str).value`. -/
def strAttributeMsg : String := "str object has no attribute value"

/-- `Identify.get_global_threshold` (lines 91-108).  On an unknown algorithm
name, line 108 builds a NotImplementedError message from
`self.threshold_algorithm.value`; `threshold_algorithm` is a plain `str`,
which has no `value` attribute, so AttributeError escapes while the message is
being formatted and the offending name never reaches any message. -/
def get_global_threshold (o : Oracles) (cfg : ThresholdConfig) (img : Img)
    (mask : Mask) : Except PyErr ℚ :=
  match algFn o cfg with
  | some f => .ok (f (maskedSample img mask))
  | none => .error (.attributeError strAttributeMsg)

/-- Python `int(x)` on the nonnegative block-edge arithmetic (truncation). -/
def pyInt (x : ℚ) : ℕ := ⌊x⌋₊

/-- `block_size = image_size / 10; block_size[block_size < 50] = 50`. -/
def blockSizeOf (size : ℕ) : ℕ :=
  let bs := size / 10
  if bs < 50 then 50 else bs

/-- `nblocks = image_size / block_size` (integer division). -/
def nblocksOf (size : ℕ) : ℕ := size / blockSizeOf size

/-- `int(k * increment)` where `increment = image_size / nblocks` as a float. -/
def blockEdge (size nb k : ℕ) : ℕ := pyInt ((k : ℚ) * ((size : ℚ) / (nb : ℚ)))

/-- `image[i0:i1, j0:j1]`. -/
def subImg (img : Img) (i0 i1 j0 j1 : ℕ) : Img :=
  ⟨i1 - i0, j1 - j0, fun r c => img.px (i0 + r) (j0 + c)⟩

/-- `mask[i0:..., j0:...]`. -/
def subMask (mask : Mask) (i0 j0 : ℕ) : Mask := fun r c => mask (i0 + r) (j0 + c)

/-- The double block loop of `get_adaptive_threshold`, in iteration order. -/
def blockPairs (nb0 nb1 : ℕ) : List (ℕ × ℕ) :=
  (List.range nb0).bind fun i => (List.range nb1).map fun j => (i, j)

/-- Membership of pixel `(r, c)` in the rectangle `[i0:i1, j0:j1]` written by
block `ij` of the loop. -/
def coversBlock (img : Img) (ij : ℕ × ℕ) (r c : ℕ) : Prop :=
  blockEdge img.m (nblocksOf img.m) ij.1 ≤ r ∧
  r < blockEdge img.m (nblocksOf img.m) (ij.1 + 1) ∧
  blockEdge img.n (nblocksOf img.n) ij.2 ≤ c ∧
  c < blockEdge img.n (nblocksOf img.n) (ij.2 + 1)

instance (img : Img) (ij : ℕ × ℕ) (r c : ℕ) : Decidable (coversBlock img ij r c) :=
  inferInstanceAs (Decidable (_ ∧ _ ∧ _ ∧ _))

/-- Lines 149-153: `get_global_threshold` of block `ij` (abstract `gto`),
clamped to `[min_threshold, max_threshold]` by `max` then `min`. -/
def blockValue (gto : Img → Mask → ℚ) (img : Img) (mask : Mask)
    (minT maxT : ℚ) (ij : ℕ × ℕ) : ℚ :=
  let i0 := blockEdge img.m (nblocksOf img.m) ij.1
  let i1 := blockEdge img.m (nblocksOf img.m) (ij.1 + 1)
  let j0 := blockEdge img.n (nblocksOf img.n) ij.2
  let j1 := blockEdge img.n (nblocksOf img.n) (ij.2 + 1)
  let bt := gto (subImg img i0 i1 j0 j1) (subMask mask i0 j0)
  pyMin (pyMax bt minT) maxT

/-- One iteration of the block loop (lines 143-154): threshold the block,
clamp to `[min_threshold, max_threshold]`, write over the block's rectangle. -/
def adaptiveStep (gto : Img → Mask → ℚ) (img : Img) (mask : Mask)
    (minT maxT : ℚ) (acc : ℕ → ℕ → ℚ) (ij : ℕ × ℕ) : ℕ → ℕ → ℚ :=
  fun r c =>
    if coversBlock img ij r c then blockValue gto img mask minT maxT ij
    else acc r c

/-- `Identify.get_adaptive_threshold` (lines 110-155) as the per-pixel value
function of the produced `thresh_out` array (`numpy.zeros` before the loop);
`gto` abstracts `self.get_global_threshold` applied to each block. -/
def get_adaptive_threshold (gto : Img → Mask → ℚ) (img : Img) (mask : Mask)
    (threshold : ℚ) : ℕ → ℕ → ℚ :=
  let min_threshold := pyMax (7/10 * threshold) 0
  let max_threshold := pyMin (3/2 * threshold) 1
  (blockPairs (nblocksOf img.m) (nblocksOf img.n)).foldl
    (adaptiveStep gto img mask min_threshold max_threshold) fun _ _ => 0

/-- The `thresh_out` array materialised as a list of rows, for the shape
guarantee. -/
def adaptiveGrid (gto : Img → Mask → ℚ) (img : Img) (mask : Mask)
    (threshold : ℚ) : List (List ℚ) :=
  (List.range img.m).map fun r => (List.range img.n).map fun c =>
    get_adaptive_threshold gto img mask threshold r c

/-- Rows of the image in which label `i` occurs. -/
def rowsWith (lbl : Labels) (m n i : ℕ) : List ℕ :=
  (List.range m).filter fun r => (List.range n).any fun c => lbl r c == i

/-- Columns of the image in which label `i` occurs. -/
def colsWith (lbl : Labels) (m n i : ℕ) : List ℕ :=
  (List.range n).filter fun c => (List.range m).any fun r => lbl r c == i

/-- `scipy.ndimage.find_objects`: the bounding box of label `i` as inclusive
row and column bounds, `none` when the label does not occur (source gets a
`None` slot, whose iteration writes no pixel). -/
def extentOf (lbl : Labels) (m n i : ℕ) : Option (ℕ × ℕ × ℕ × ℕ) :=
  match (rowsWith lbl m n i).head?, (rowsWith lbl m n i).getLast?,
        (colsWith lbl m n i).head?, (colsWith lbl m n i).getLast? with
  | some r0, some r1, some c0, some c1 => some (r0, r1, c0, c1)
  | _, _, _, _ => none

/-- `image[extent][label_mask]` for object `i`: the row-major sample of the
bounding box keeping the pixels where `mask` holds and `labels == i`. -/
def region_sample (lbl : Labels) (img : Img) (mask : Mask) (i : ℕ) : List ℚ :=
  match extentOf lbl img.m img.n i with
  | some (r0, r1, c0, c1) =>
    maskedSample (subImg img r0 (r1 + 1) c0 (c1 + 1))
      fun r c => mask (r0 + r) (c0 + c) && (lbl (r0 + r) (c0 + c) == i)
  | none => []

/-- `numpy.max(labels)`. -/
def maxLabel (lbl : Labels) (m n : ℕ) : ℕ :=
  ((List.range m).bind fun r => (List.range n).map fun c => lbl r c).foldl max 0

/-- One iteration of the object loop of `get_per_object_threshold`
(lines 168-172): where `mask` holds and `labels == i` (necessarily inside the
label's bounding box), write the Global Algorithm Library's scalar for the
object's masked bounding-box sample. -/
def perObjectStep (gto : List ℚ → ℚ) (img : Img) (mask : Mask) (lbl : Labels)
    (acc : ℕ → ℕ → ℚ) (k : ℕ) : ℕ → ℕ → ℚ :=
  match extentOf lbl img.m img.n (k + 1) with
  | none => acc
  | some (r0, r1, c0, c1) =>
    fun r c =>
      if r0 ≤ r ∧ r ≤ r1 ∧ c0 ≤ c ∧ c ≤ c1 ∧ mask r c ∧ lbl r c = k + 1 then
        gto (region_sample lbl img mask (k + 1))
      else acc r c

/-- `Identify.get_per_object_threshold` (lines 157-173) as the per-pixel value
function of the produced grid (`numpy.ones` everywhere no object pixel is
written); the `threshold` argument is accepted and unused, as in the source. -/
def get_per_object_threshold (gto : List ℚ → ℚ) (img : Img) (mask : Mask)
    (lbl : Labels) (_threshold : ℚ) : ℕ → ℕ → ℚ :=
  (List.range (maxLabel lbl img.m img.n)).foldl
    (perObjectStep gto img mask lbl) fun _ _ => 1

/-- The first return of `get_threshold`: a scalar or a per-pixel array. -/
inductive TVal where
  | scalar (v : ℚ)
  | grid (m n : ℕ) (val : ℕ → ℕ → ℚ)

/-- Lines 80-87: the range clamp, exactly as the source performs it: two
masked in-place passes on an array, max-then-min on a scalar. -/
def tvClamp (t : TVal) (lo hi : ℚ) : TVal :=
  match t with
  | .scalar v => .scalar (pyMin (pyMax v lo) hi)
  | .grid m n f => .grid m n fun r c =>
      let v1 := if f r c < lo then lo else f r c
      if v1 > hi then hi else v1

/-- Line 88: multiplication by the correction factor (elementwise on arrays). -/
def tvScale (t : TVal) (k : ℚ) : TVal :=
  match t with
  | .scalar v => .scalar (v * k)
  | .grid m n f => .grid m n fun r c => f r c * k

/-- Elementwise map on a threshold value, used to state the clamp formula. -/
def tvMap (f : ℚ → ℚ) : TVal → TVal
  | .scalar v => .scalar (f v)
  | .grid m n g => .grid m n fun r c => f (g r c)

/-- Lines 71-79 of `get_threshold`: the global threshold and the modifier's
local threshold, before the range clamp and the correction factor. -/
def local_and_global (o : Oracles) (cfg : ThresholdConfig) (img : Img)
    (mask : Mask) (lbl : Labels) : Except PyErr (TVal × ℚ) :=
  match algFn o cfg with
  | none => .error (.attributeError strAttributeMsg)
  | some f =>
    let global_threshold := f (maskedSample img mask)
    match threshold_modifier cfg with
    | none => .error .indexError
    | some md =>
      if md = "Global" then .ok (.scalar global_threshold, global_threshold)
      else if md = "Adaptive" then
        .ok (.grid img.m img.n
          (get_adaptive_threshold (fun bi bm => f (maskedSample bi bm)) img mask
            global_threshold), global_threshold)
      else if md = "PerObject" then
        .ok (.grid img.m img.n
          (get_per_object_threshold f img mask lbl global_threshold),
          global_threshold)
      else .error (.notImplementedError (md ++ " thresholding is not implemented"))

/-- `Identify.get_threshold` (lines 62-89): Manual short-circuit, then the
local/global pipeline, then range clamp, then correction factor. -/
def get_threshold (o : Oracles) (cfg : ThresholdConfig) (img : Img)
    (mask : Mask) (lbl : Labels) : Except PyErr (TVal × ℚ) :=
  if cfg.threshold_method = "Manual" then
    .ok (.scalar cfg.manual_threshold, cfg.manual_threshold)
  else
    match local_and_global o cfg img mask lbl with
    | .error e => .error e
    | .ok (lt, g) =>
      .ok (tvScale (tvClamp lt cfg.threshold_range_min cfg.threshold_range_max)
             cfg.threshold_correction_factor, g)

theorem pyMax_eq_max (a b : ℚ) : pyMax a b = max a b := by
  unfold pyMax
  split_ifs with h
  · exact (max_eq_right h.le).symm
  · exact (max_eq_left (not_lt.mp h)).symm

theorem pyMin_eq_min (a b : ℚ) : pyMin a b = min a b := by
  unfold pyMin
  split_ifs with h
  · exact (min_eq_right h.le).symm
  · exact (min_eq_left (not_lt.mp h)).symm

theorem clamp_src_eq (v lo hi : ℚ) :
    (if (if v < lo then lo else v) > hi then hi else if v < lo then lo else v) =
      min (max v lo) hi := by
  rcases lt_or_le v lo with h | h
  · rw [if_pos h, max_eq_right h.le]
    split_ifs with h2
    · exact (min_eq_right h2.le).symm
    · exact (min_eq_left (not_lt.mp h2)).symm
  · rw [if_neg (not_lt.mpr h), max_eq_left h]
    split_ifs with h2
    · exact (min_eq_right h2.le).symm
    · exact (min_eq_left (not_lt.mp h2)).symm

theorem tvScale_tvClamp_eq_tvMap (l : TVal) (lo hi k : ℚ) :
    tvScale (tvClamp l lo hi) k = tvMap (fun v => min (max v lo) hi * k) l := by
  cases l with
  | scalar v => simp [tvScale, tvClamp, tvMap, pyMin_eq_min, pyMax_eq_max]
  | grid m n f =>
    simp only [tvScale, tvClamp, tvMap]
    congr 1
    funext r c
    rw [clamp_src_eq]

/-- C4: when the configured method is Manual, `get_threshold` returns the
configured manual value in both positions, for every oracle set, image, mask,
label matrix, range and correction factor: no algorithm runs, no range clamp
and no correction factor is applied. -/
theorem C4_manual_short_circuit (o : Oracles) (cfg : ThresholdConfig)
    (img : Img) (mask : Mask) (lbl : Labels)
    (h : cfg.threshold_method = "Manual") :
    get_threshold o cfg img mask lbl =
      .ok (.scalar cfg.manual_threshold, cfg.manual_threshold) := by
  simp [get_threshold, h]

/-- All-zero oracles, used to instantiate witnesses. -/
def oZero : Oracles := ⟨fun _ _ _ => 0, fun _ _ => 0, fun _ => 0, fun _ => 0, fun _ => 0⟩

/-- The all-true mask. -/
def maskAll : Mask := fun _ _ => true

/-- The all-zero (objectless) label matrix. -/
def lblZero : Labels := fun _ _ => 0

/-- A concrete 1×1 image of intensity 1/2. -/
def imgW : Img := ⟨1, 1, fun _ _ => 1/2⟩

/-- A Manual configuration with manual value 0.37. -/
def cfgManual : ThresholdConfig := ⟨"Manual", 37/100, 0, 1, 1, 1/2⟩

/-- C4 witness: the Manual configuration with manual value 0.37 on a concrete
image returns 0.37 twice. -/
theorem C4_manual_short_circuit_witness :
    get_threshold oZero cfgManual imgW maskAll lblZero =
      .ok (.scalar (37/100), 37/100) :=
  C4_manual_short_circuit oZero cfgManual imgW maskAll lblZero rfl

/-- An unknown-algorithm configuration. -/
def cfgFro : ThresholdConfig := ⟨"Frobnicate Global", 0, 0, 1, 1, 1/2⟩

/-- A known-algorithm, unknown-modifier configuration. -/
def cfgWeird : ThresholdConfig := ⟨"Otsu Weird", 0, 0, 1, 1, 1/2⟩

/-- `needle.isPrefixOf hay` on character lists, spelled out. -/
def startsWithSeq : List Char → List Char → Bool
  | [], _ => true
  | _ :: _, [] => false
  | a :: as, b :: bs => a == b && startsWithSeq as bs

/-- Containment of `needle` as a contiguous subsequence of `hay`: the test for
whether an error message names an offending string. -/
def hasSeq (needle : List Char) : List Char → Bool
  | [] => startsWithSeq needle []
  | b :: bs => startsWithSeq needle (b :: bs) || hasSeq needle bs

/-- C3 (code bug, lines 78-79 and 107-108): an unknown modifier does raise
NotImplementedError naming the offending string, but an unknown algorithm name
makes line 108 evaluate `self.threshold_algorithm.value` on a plain `str`, so
AttributeError escapes instead and its message never names the offending
string. -/
theorem C3_unknown_name_errors :
    get_threshold oZero cfgFro imgW maskAll lblZero =
      .error (.attributeError strAttributeMsg) ∧
    hasSeq "Frobnicate".toList strAttributeMsg.toList = false ∧
    get_threshold oZero cfgWeird imgW maskAll lblZero =
      .error (.notImplementedError "Weird thresholding is not implemented") ∧
    hasSeq "Weird".toList "Weird thresholding is not implemented".toList = true :=
  ⟨rfl, by decide, rfl, by decide⟩

/-- C1: for every non-Manual configuration on which the engine succeeds with
local threshold `l` and global threshold `g`, the first value `get_threshold`
returns is exactly `clamp(l, range.min, range.max) * correction_factor`,
elementwise when `l` is an array: the modifier's result is clamped to the
configured range first and only then multiplied by the correction factor, so
the final value may exceed the range by the correction factor. -/
theorem C1_clamp_then_correct (o : Oracles) (cfg : ThresholdConfig) (img : Img)
    (mask : Mask) (lbl : Labels) (l : TVal) (g : ℚ)
    (hm : cfg.threshold_method ≠ "Manual")
    (h : local_and_global o cfg img mask lbl = .ok (l, g)) :
    get_threshold o cfg img mask lbl =
      .ok (tvMap (fun v =>
        min (max v cfg.threshold_range_min) cfg.threshold_range_max *
          cfg.threshold_correction_factor) l, g) := by
  unfold get_threshold
  rw [if_neg hm, h]
  show Except.ok
      (tvScale (tvClamp l cfg.threshold_range_min cfg.threshold_range_max)
        cfg.threshold_correction_factor, g) = _
  rw [tvScale_tvClamp_eq_tvMap]

/-- An Otsu Global configuration with range `[0, 1]` and correction factor 1. -/
def cfgOtsuGlobal : ThresholdConfig := ⟨"Otsu Global", 0, 0, 1, 1, 1/2⟩

/-- C1 witness: on a concrete 1×1 image under Otsu Global (whose degenerate
guard returns 0), the engine returns the clamped and corrected scalar. -/
theorem C1_clamp_then_correct_witness :
    get_threshold oZero cfgOtsuGlobal imgW maskAll lblZero =
      .ok (tvMap (fun v => min (max v 0) 1 * 1) (.scalar 0), 0) :=
  C1_clamp_then_correct oZero cfgOtsuGlobal imgW maskAll lblZero (.scalar 0) 0
    (by decide) rfl

theorem foldl_min_all (v : ℚ) (xs : List ℚ) (h : ∀ x ∈ xs, x = v) :
    xs.foldl min v = v := by
  induction xs with
  | nil => rfl
  | cons y ys ih =>
    have hy : y = v := h y (by simp)
    rw [List.foldl_cons, hy, min_self]
    exact ih fun x hx => h x (by simp [hx])

theorem foldl_max_all (v : ℚ) (xs : List ℚ) (h : ∀ x ∈ xs, x = v) :
    xs.foldl max v = v := by
  induction xs with
  | nil => rfl
  | cons y ys ih =>
    have hy : y = v := h y (by simp)
    rw [List.foldl_cons, hy, max_self]
    exact ih fun x hx => h x (by simp [hx])

theorem npMin_const (s : List ℚ) (v : ℚ) (hne : s ≠ []) (h : ∀ x ∈ s, x = v) :
    npMin s = v := by
  cases s with
  | nil => exact absurd rfl hne
  | cons x xs =>
    show xs.foldl min x = v
    rw [h x (by simp)]
    exact foldl_min_all v xs fun y hy => h y (by simp [hy])

theorem npMax_const (s : List ℚ) (v : ℚ) (hne : s ≠ []) (h : ∀ x ∈ s, x = v) :
    npMax s = v := by
  cases s with
  | nil => exact absurd rfl hne
  | cons x xs =>
    show xs.foldl max x = v
    rw [h x (by simp)]
    exact foldl_max_all v xs fun y hy => h y (by simp [hy])

theorem headD_const (s : List ℚ) (v : ℚ) (hne : s ≠ []) (h : ∀ x ∈ s, x = v) :
    s.headD 0 = v := by
  cases s with
  | nil => exact absurd rfl hne
  | cons x xs => exact h x (by simp)

/-- C2 (amended): each algorithm returns the constant value of a constant
sample only once the sample passes its own size guard — at least 3 elements
for Otsu (spec-modelled), Background (any nonempty sample), RobustBackground,
RidlerCalvard and Kapur, and at least `3 / min(object_fraction,
background_fraction)` elements for MoG; below the size guard the answer is
the trivial constant 0 (1 for MoG, which checks size before constancy), and
no algorithm raises. -/
theorem C2_degenerate_guards (o : Oracles) (s : List ℚ) (v of lo hi : ℚ)
    (hne : s ≠ []) (h : ∀ x ∈ s, x = v) :
    (3 ≤ s.length → otsu o s lo hi = v) ∧
    (¬((s.length : ℚ) < 3 / min of (1 - of)) → get_mog_threshold o of s = v) ∧
    get_background_threshold s = v ∧
    (3 ≤ s.length → get_robust_background_threshold o s = v) ∧
    (3 ≤ s.length → get_ridler_calvard_threshold o s = v) ∧
    (3 ≤ s.length → get_kapur_threshold o s = v) ∧
    (s.length < 3 → get_kapur_threshold o s = 0) ∧
    ((s.length : ℚ) < 3 / min of (1 - of) → get_mog_threshold o of s = 1) := by
  have hmin := npMin_const s v hne h
  have hmax := npMax_const s v hne h
  have hhd := headD_const s v hne h
  refine ⟨?_, ?_, ?_, ?_, ?_, ?_, ?_, ?_⟩
  · intro h3
    unfold otsu
    rw [if_neg (by omega), hmin, hmax, if_pos rfl, hhd]
  · intro hg
    unfold get_mog_threshold
    rw [if_neg hg, hmax, hmin, if_pos rfl, hhd]
  · unfold get_background_threshold
    rw [if_neg (by simpa using hne), hmin, hmax, if_pos rfl, hhd]
  · intro h3
    unfold get_robust_background_threshold
    rw [if_neg (by omega), hmin, hmax, if_pos rfl, hhd]
  · intro h3
    unfold get_ridler_calvard_threshold
    rw [if_neg (by omega), hmin, hmax, if_pos rfl, hhd]
  · intro h3
    unfold get_kapur_threshold
    rw [if_neg (by omega), hmin, hmax, if_pos rfl, hhd]
  · intro h3
    unfold get_kapur_threshold
    rw [if_pos h3]
  · intro hg
    unfold get_mog_threshold
    rw [if_pos hg]

/-- C2 counterexample: the two-element sample [1/2, 1/2] is constant — its
minimum equals its maximum — yet Kapur's size guard (line 377) fires before
the constancy guard and returns 0, not the constant 1/2. -/
theorem C2_counterexample :
    get_kapur_threshold oZero [1/2, 1/2] = 0 ∧ (0 : ℚ) ≠ 1/2 :=
  ⟨rfl, by norm_num⟩

/-- C2 witness: a 3-element constant sample of value 1/2 passes Kapur's size
guard and the constancy guard returns the constant. -/
theorem C2_degenerate_guards_witness :
    get_kapur_threshold oZero [1/2, 1/2, 1/2] = 1/2 :=
  (C2_degenerate_guards oZero [1/2, 1/2, 1/2] (1/2) (1/2) 0 1 (by simp)
    (by simp)).2.2.2.2.2.1 (by decide)

/-- C7 (amended): on a masked sample in which all pixels share one value `v`
and which has at least 3 elements, the Kapur algorithm returns `v` itself (the
min==max guard of lines 379-380), not `2^v`; the `2**histogram_values[0]`
corner case of line 396 is unreachable for a constant sample. -/
theorem C7_kapur_constant (o : Oracles) (s : List ℚ) (v : ℚ)
    (h3 : 3 ≤ s.length) (h : ∀ x ∈ s, x = v) :
    get_kapur_threshold o s = v := by
  have hne : s ≠ [] := by
    cases s with
    | nil => simp at h3
    | cons x xs => simp
  unfold get_kapur_threshold
  rw [if_neg (by omega), npMin_const s v hne h, npMax_const s v hne h,
    if_pos rfl, headD_const s v hne h]

/-- C7 counterexample: all pixels share the value 1; the claim demands
`2^1 = 2`, but the constancy guard returns the shared value 1 itself. -/
theorem C7_counterexample :
    get_kapur_threshold oZero [1, 1, 1] = 1 ∧ (1 : ℚ) ≠ 2 ^ (1 : ℕ) :=
  ⟨rfl, by norm_num⟩

/-- C7 witness: the constant sample of value 1/3 with 3 elements. -/
theorem C7_kapur_constant_witness :
    get_kapur_threshold oZero [1/3, 1/3, 1/3] = 1/3 :=
  C7_kapur_constant oZero [1/3, 1/3, 1/3] (1/3) (by decide) (by simp)

/-- numpy mean; the mean of an empty array is NaN, modelled as `none`. -/
def npMeanO (l : List ℚ) : Option ℚ :=
  if l.length = 0 then none else some (l.sum / l.length)

/-- numpy std (population): the square root — abstracted as `osqrt` — of the
mean squared deviation; the std of an empty array is NaN, modelled as `none`. -/
def npStdO (osqrt : ℚ → ℚ) (l : List ℚ) : Option ℚ :=
  if l.length = 0 then none
  else some (osqrt ((l.map fun x => (x - l.sum / l.length) ^ 2).sum / l.length))

/-- Python 2 `round` on a nonnegative float: half away from zero. -/
def pyRound (x : ℚ) : ℕ := ⌊x + 1/2⌋₊

/-- Insertion step of the sort modelling `cropped_image.sort()`. -/
def insertSorted (x : ℚ) : List ℚ → List ℚ
  | [] => [x]
  | y :: ys => if x ≤ y then x :: y :: ys else y :: insertSorted x ys

/-- `cropped_image.sort()`: ascending sort. -/
def sortQ : List ℚ → List ℚ
  | [] => []
  | x :: xs => insertSorted x (sortQ xs)

/-- Python `l[chop : -chop]`: the stop index is `len - chop` — except that
`-0` is `0`, so `chop = 0` yields the EMPTY slice, not the whole list. -/
def pySliceChop (l : List ℚ) (chop : ℕ) : List ℚ :=
  let stop := if chop = 0 then 0 else l.length - chop
  (l.take stop).drop chop

/-- `Identify.get_robust_background_threshold` (lines 318-336) in full: sort,
chop `int(round(n * 0.05))` values off each end via the slice
`cropped_image[chop:-chop]`, and return mean + 2·std of the remainder; NaN
(the mean/std of an empty slice) is modelled as `none`. -/
def robust_background_model (osqrt : ℚ → ℚ) (sample : List ℚ) : Option ℚ :=
  if sample.length < 3 then some 0
  else if npMin sample = npMax sample then some (sample.headD 0)
  else
    let sorted := sortQ sample
    let chop := pyRound ((sample.length : ℚ) * (5/100))
    let im := pySliceChop sorted chop
    match npMeanO im, npStdO osqrt im with
    | some mean, some sd => some (mean + sd * 2)
    | _, _ => none

/-- C8 (code bug): for the 3-element sample [0.1, 0.2, 0.3] — at least 3
elements, min ≠ max — the chop count `int(round(3·0.05))` is 0, the slice
`cropped_image[0:-0]` is therefore EMPTY rather than the whole sample, and
mean and std of an empty array are NaN: the function returns NaN instead of
the documented mean + 2·std of the remaining pixels.  The same holds for
every sample of 3 to 9 elements. -/
theorem C8_robust_background_nan (osqrt : ℚ → ℚ) :
    robust_background_model osqrt [1/10, 2/10, 3/10] = none := by
  have hmin : npMin [1/10, 2/10, 3/10] = 1/10 := by
    norm_num [npMin, min_def]
  have hmax : npMax [1/10, 2/10, 3/10] = 3/10 := by
    norm_num [npMax, max_def]
  have hchop : pyRound ((([1/10, 2/10, 3/10] : List ℚ).length : ℚ) * (5/100)) = 0 := by
    unfold pyRound
    rw [Nat.floor_eq_zero]
    norm_num
  unfold robust_background_model
  rw [if_neg (by norm_num), if_neg (by rw [hmin, hmax]; norm_num), hchop]
  simp [pySliceChop, npMeanO]

/-- Line 398: `p = histogram / sum(histogram)`. -/
def kapurProbs (hist : List ℕ) : List ℚ := hist.map fun h => (h : ℚ) / (hist.sum : ℚ)

/-- `numpy.cumsum`: the list of partial sums. -/
def cumsum (l : List ℚ) : List ℚ :=
  (List.range l.length).map fun k => (l.take (k + 1)).sum

/-- Line 400: `lo_sum = numpy.cumsum(p)` — the denominators of line 406. -/
def kapurLoSum (p : List ℚ) : List ℚ := cumsum p

/-- Line 401: `hi_sum = lo_sum[-1] - lo_sum` — the denominators of line 407. -/
def kapurHiSum (p : List ℚ) : List ℚ :=
  (kapurLoSum p).map fun s => (kapurLoSum p).getLastD 0 - s

/-- Every denominator of the entropy computations of lines 406-407. -/
def kapurEntropyDenominators (p : List ℚ) : List ℚ := kapurLoSum p ++ kapurHiSum p

/-- Line 252: `pixel_class_normalizer = numpy.sum(pixel_class_prob, 1) + 1e-12`
for one pixel whose per-class terms are `classTerms`. -/
def mogPixelClassNormalizer (classTerms : List ℚ) : ℚ :=
  classTerms.sum + 1/1000000000000

/-- Lines 259-262: the class standard deviation update
`sqrt(sum(prob·(im-mean)²) / (pixel_count·class_prob)) + 1e-6`. -/
def mogClassStd (osqrt : ℚ → ℚ) (probs pix : List ℚ) (classMean classProb : ℚ)
    (pixelCount : ℕ) : ℚ :=
  osqrt (((probs.zip pix).map fun q => q.1 * (q.2 - classMean) ^ 2).sum /
    ((pixelCount : ℚ) * classProb)) + 1/1000000

theorem cumsum_getLast? (p : List ℚ) (hne : p ≠ []) :
    (cumsum p).getLast? = some p.sum := by
  obtain ⟨n, hn⟩ : ∃ n, p.length = n + 1 :=
    ⟨p.length - 1, by cases p with | nil => exact absurd rfl hne | cons x xs => simp⟩
  unfold cumsum
  rw [hn, List.range_succ, List.map_append, List.map_cons, List.map_nil,
    List.getLast?_concat]
  have : p.take (n + 1) = p := List.take_of_length_le (by omega)
  rw [this]

theorem mem_cumsum (p : List ℚ) (d : ℚ) (hd : d ∈ cumsum p) :
    ∃ k < p.length, d = (p.take (k + 1)).sum := by
  unfold cumsum at hd
  obtain ⟨k, hk, rfl⟩ := List.mem_map.mp hd
  exact ⟨k, List.mem_range.mp hk, rfl⟩

theorem take_sum_pos (p : List ℚ) (hpos : ∀ x ∈ p, 0 < x) (k : ℕ)
    (hk : k < p.length) : 0 < (p.take (k + 1)).sum := by
  apply List.sum_pos
  · exact fun x hx => hpos x (List.take_subset _ _ hx)
  · have : (p.take (k + 1)).length = k + 1 := by
      rw [List.length_take]
      omega
    intro hcon
    rw [hcon] at this
    simp at this

theorem dropLast_map_my {α β : Type} (f : α → β) (l : List α) :
    (l.map f).dropLast = l.dropLast.map f := (List.map_dropLast f l).symm

theorem dropLast_cumsum (p : List ℚ) :
    (cumsum p).dropLast =
      (List.range (p.length - 1)).map fun k => (p.take (k + 1)).sum := by
  unfold cumsum
  rw [dropLast_map_my]
  rcases Nat.eq_zero_or_pos p.length with h | h
  · simp [h]
  · obtain ⟨n, hn⟩ : ∃ n, p.length = n + 1 := ⟨p.length - 1, by omega⟩
    rw [hn, List.range_succ, List.dropLast_concat]
    simp

/-- C9 (amended): the only epsilon guards are MoG's posterior normalizer
(+1e-12, line 252) and its standard deviations (+1e-6, line 262); Kapur's
entropy denominators carry no epsilon: the low-side cumulative sums are
positive because empty bins were dropped, every high-side cumulative sum
except the final one is positive, and the final one is exactly 0 — that
division by zero does happen, and line 410 discards its non-finite result
before the argmin. -/
theorem C9_epsilon_guards :
    (∀ p : List ℚ, (∀ x ∈ p, 0 < x) →
      (∀ d ∈ kapurLoSum p, 0 < d) ∧
      (∀ d ∈ (kapurHiSum p).dropLast, 0 < d) ∧
      (p ≠ [] → (kapurHiSum p).getLast? = some 0)) ∧
    (∀ ts : List ℚ, (∀ x ∈ ts, 0 ≤ x) →
      1/1000000000000 ≤ mogPixelClassNormalizer ts) ∧
    (∀ (osqrt : ℚ → ℚ) (probs pix : List ℚ) (classMean classProb : ℚ)
      (pixelCount : ℕ), (∀ x, 0 ≤ osqrt x) →
      1/1000000 ≤ mogClassStd osqrt probs pix classMean classProb pixelCount) := by
  refine ⟨?_, ?_, ?_⟩
  · intro p hpos
    refine ⟨?_, ?_, ?_⟩
    · intro d hd
      obtain ⟨k, hk, rfl⟩ := mem_cumsum p d hd
      exact take_sum_pos p hpos k hk
    · intro d hd
      unfold kapurHiSum kapurLoSum at hd
      rw [dropLast_map_my] at hd
      obtain ⟨s, hs, rfl⟩ := List.mem_map.mp hd
      have hne : p ≠ [] := by
        intro hcon
        subst hcon
        simp [cumsum] at hs
      rw [dropLast_cumsum] at hs
      obtain ⟨k, hk, rfl⟩ := List.mem_map.mp hs
      have hk : k < p.length - 1 := List.mem_range.mp hk
      rw [List.getLastD_eq_getLast?, cumsum_getLast? p hne]
      have hsplit := List.sum_take_add_sum_drop p (k + 1)
      have hdrop : p.drop (k + 1) ≠ [] := by
        intro hcon
        have hlen : (p.drop (k + 1)).length = 0 := by rw [hcon]; rfl
        rw [List.length_drop] at hlen
        omega
      have hpos2 : 0 < (p.drop (k + 1)).sum :=
        List.sum_pos _ (fun x hx => hpos x (List.drop_subset _ _ hx)) hdrop
      have : (Option.getD (some p.sum) 0) - (p.take (k + 1)).sum =
          (p.drop (k + 1)).sum := by
        simp only [Option.getD_some]
        linarith
      rw [this]
      exact hpos2
    · intro hne
      unfold kapurHiSum kapurLoSum
      rw [List.getLast?_map, cumsum_getLast? p hne,
        List.getLastD_eq_getLast?, cumsum_getLast? p hne]
      simp
  · intro ts hts
    have := List.sum_nonneg hts
    unfold mogPixelClassNormalizer
    linarith
  · intro osqrt probs pix classMean classProb pixelCount hsq
    have := hsq (((probs.zip pix).map fun q => q.1 * (q.2 - classMean) ^ 2).sum /
      ((pixelCount : ℚ) * classProb))
    unfold mogClassStd
    linarith

/-- C9 counterexample: for the normalized histogram of the two bin counts
[3, 3], the high-side cumulative sums of line 401 are [1/2, 0]: the final
denominator of `hi_e / hi_sum` (line 407) is exactly 0, so a division by zero
does occur for a histogram side carrying zero probability mass, with no
epsilon guarding it. -/
theorem C9_counterexample :
    (0 : ℚ) ∈ kapurEntropyDenominators (kapurProbs [3, 3]) := by
  have h : kapurHiSum (kapurProbs [3, 3]) = [1/2, 0] := by
    norm_num [kapurHiSum, kapurLoSum, kapurProbs, cumsum, List.range_succ]
  unfold kapurEntropyDenominators
  rw [h]
  simp

/-- C9 witness: a concrete positive histogram makes the low-side denominators
positive, and the MoG normalizer and standard deviation respect their
epsilons. -/
theorem C9_epsilon_guards_witness :
    (0 : ℚ) < 1/2 ∧
    (1/1000000000000 : ℚ) ≤ mogPixelClassNormalizer [1/4, 1/4] ∧
    (1/1000000 : ℚ) ≤ mogClassStd (fun _ => 0) [] [] 0 0 0 :=
  ⟨(C9_epsilon_guards.1 [1/2, 1/2] (by norm_num)).1 (1/2)
      (by norm_num [kapurLoSum, cumsum, List.range_succ]),
   C9_epsilon_guards.2.1 [1/4, 1/4] (by norm_num),
   C9_epsilon_guards.2.2 (fun _ => 0) [] [] 0 0 0 fun _ => le_refl 0⟩

theorem blockEdge_mono (size nb : ℕ) : Monotone (blockEdge size nb) := by
  intro a b hab
  unfold blockEdge pyInt
  apply Nat.floor_le_floor
  have hc : (a : ℚ) ≤ b := by exact_mod_cast hab
  have hd : (0 : ℚ) ≤ (size : ℚ) / (nb : ℚ) := by positivity
  exact mul_le_mul_of_nonneg_right hc hd

theorem blockEdge_zero (size nb : ℕ) : blockEdge size nb 0 = 0 := by
  unfold blockEdge pyInt
  norm_num

theorem blockEdge_self (size nb : ℕ) (h : 0 < nb) : blockEdge size nb nb = size := by
  unfold blockEdge pyInt
  have hnb : (nb : ℚ) ≠ 0 := by positivity
  rw [mul_comm, div_mul_cancel₀ _ hnb, Nat.floor_natCast]

theorem nblocksOf_pos (size : ℕ) (h : 50 ≤ size) : 0 < nblocksOf size := by
  show 0 < size / (if size / 10 < 50 then 50 else size / 10)
  split_ifs with hb
  · exact Nat.div_pos h (by norm_num)
  · exact Nat.div_pos (Nat.div_le_self size 10) (by omega)

theorem exists_interval (f : ℕ → ℕ) (_hf : Monotone f) (N r : ℕ)
    (h0 : f 0 ≤ r) (hN : r < f N) : ∃ k < N, f k ≤ r ∧ r < f (k + 1) := by
  induction N with
  | zero => omega
  | succ n ih =>
    by_cases h : f n ≤ r
    · exact ⟨n, Nat.lt_succ_self n, h, hN⟩
    · obtain ⟨k, hk, hk1, hk2⟩ := ih (by omega)
      exact ⟨k, by omega, hk1, hk2⟩

theorem interval_unique (f : ℕ → ℕ) (hf : Monotone f) (i k r : ℕ)
    (h1 : f i ≤ r) (h2 : r < f (i + 1)) (h3 : f k ≤ r) (h4 : r < f (k + 1)) :
    i = k := by
  by_contra hne
  rcases Nat.lt_or_ge i k with h | h
  · have h5 := hf (show i + 1 ≤ k by omega)
    omega
  · have hk2 : k < i := by omega
    have h5 := hf (show k + 1 ≤ i by omega)
    omega

theorem mem_blockPairs (nb0 nb1 i j : ℕ) :
    (i, j) ∈ blockPairs nb0 nb1 ↔ i < nb0 ∧ j < nb1 := by
  simp [blockPairs]

theorem foldl_adaptiveStep_not_covered (gto : Img → Mask → ℚ) (img : Img)
    (mask : Mask) (minT maxT : ℚ) (L : List (ℕ × ℕ)) (acc : ℕ → ℕ → ℚ)
    (r c : ℕ) (h : ∀ ij ∈ L, ¬ coversBlock img ij r c) :
    (L.foldl (adaptiveStep gto img mask minT maxT) acc) r c = acc r c := by
  induction L generalizing acc with
  | nil => rfl
  | cons ij L ih =>
    rw [List.foldl_cons, ih _ fun kl hkl => h kl (by simp [hkl])]
    exact if_neg (h ij (by simp))

theorem foldl_adaptiveStep_unique (gto : Img → Mask → ℚ) (img : Img)
    (mask : Mask) (minT maxT : ℚ) (L : List (ℕ × ℕ)) (acc : ℕ → ℕ → ℚ)
    (r c : ℕ) (ij : ℕ × ℕ) (hmem : ij ∈ L) (hcov : coversBlock img ij r c)
    (huniq : ∀ kl ∈ L, coversBlock img kl r c → kl = ij) :
    (L.foldl (adaptiveStep gto img mask minT maxT) acc) r c =
      blockValue gto img mask minT maxT ij := by
  induction L generalizing acc with
  | nil => cases hmem
  | cons hd tl ih =>
    rw [List.foldl_cons]
    by_cases htl : ij ∈ tl
    · exact ih _ htl fun kl hkl => huniq kl (List.mem_cons_of_mem hd hkl)
    · have hhd : hd = ij := by
        rcases List.mem_cons.mp hmem with h | h
        · exact h.symm
        · exact absurd h htl
      subst hhd
      rw [foldl_adaptiveStep_not_covered gto img mask minT maxT tl _ r c
        fun kl hkl hklcov => htl (huniq kl (by simp [hkl]) hklcov ▸ hkl)]
      exact if_pos hcov

theorem pyClamp_bounds (bt mn mx : ℚ) (h : mn ≤ mx) :
    mn ≤ pyMin (pyMax bt mn) mx ∧ pyMin (pyMax bt mn) mx ≤ mx := by
  rw [pyMin_eq_min, pyMax_eq_max]
  exact ⟨le_min (le_max_right bt mn) h, min_le_right _ mx⟩

theorem blockValue_bounds (gto : Img → Mask → ℚ) (img : Img) (mask : Mask)
    (mn mx : ℚ) (h : mn ≤ mx) (ij : ℕ × ℕ) :
    mn ≤ blockValue gto img mask mn mx ij ∧ blockValue gto img mask mn mx ij ≤ mx :=
  pyClamp_bounds _ mn mx h

/-- C5 (amended): when both image dimensions are at least 50 (so each axis has
at least one block) and the global threshold `g` satisfies `0 ≤ g` and
`0.7·g ≤ 1` (so the clamp interval is nonempty), the adaptive thresholder
returns a grid of exactly the image's shape whose every pixel lies within
`[0.7·g, min(1.5·g, 1)]`, for every image content, mask and block
thresholder. -/
theorem C5_adaptive_shape_and_range (gto : Img → Mask → ℚ) (img : Img)
    (mask : Mask) (g : ℚ) (hm : 50 ≤ img.m) (hn : 50 ≤ img.n)
    (hg : 0 ≤ g) (hg1 : 7/10 * g ≤ 1) :
    (adaptiveGrid gto img mask g).length = img.m ∧
    (∀ row ∈ adaptiveGrid gto img mask g, row.length = img.n) ∧
    (∀ r < img.m, ∀ c < img.n,
      7/10 * g ≤ get_adaptive_threshold gto img mask g r c ∧
      get_adaptive_threshold gto img mask g r c ≤ min (3/2 * g) 1) := by
  refine ⟨by simp [adaptiveGrid], ?_, ?_⟩
  · intro row hrow
    simp only [adaptiveGrid, List.mem_map] at hrow
    obtain ⟨r, _, rfl⟩ := hrow
    simp
  · intro r hr c hc
    have hnb0 := nblocksOf_pos img.m hm
    have hnb1 := nblocksOf_pos img.n hn
    obtain ⟨i, hi, hi1, hi2⟩ := exists_interval (blockEdge img.m (nblocksOf img.m))
      (blockEdge_mono _ _) (nblocksOf img.m) r
      (by rw [blockEdge_zero]; omega) (by rw [blockEdge_self _ _ hnb0]; omega)
    obtain ⟨j, hj, hj1, hj2⟩ := exists_interval (blockEdge img.n (nblocksOf img.n))
      (blockEdge_mono _ _) (nblocksOf img.n) c
      (by rw [blockEdge_zero]; omega) (by rw [blockEdge_self _ _ hnb1]; omega)
    have hcov : coversBlock img (i, j) r c := ⟨hi1, hi2, hj1, hj2⟩
    have hmem : (i, j) ∈ blockPairs (nblocksOf img.m) (nblocksOf img.n) :=
      (mem_blockPairs _ _ i j).mpr ⟨hi, hj⟩
    have huniq : ∀ kl ∈ blockPairs (nblocksOf img.m) (nblocksOf img.n),
        coversBlock img kl r c → kl = (i, j) := by
      intro kl _ hklcov
      obtain ⟨k, l⟩ := kl
      obtain ⟨hk1, hk2, hl1, hl2⟩ := hklcov
      have hki : k = i := interval_unique _ (blockEdge_mono _ _) k i r hk1 hk2 hi1 hi2
      have hlj : l = j := interval_unique _ (blockEdge_mono _ _) l j c hl1 hl2 hj1 hj2
      rw [hki, hlj]
    have hval : get_adaptive_threshold gto img mask g r c =
        blockValue gto img mask (pyMax (7/10 * g) 0) (pyMin (3/2 * g) 1) (i, j) :=
      foldl_adaptiveStep_unique gto img mask _ _ _ _ r c (i, j) hmem hcov huniq
    have hmn : pyMax (7/10 * g) 0 = 7/10 * g := by
      rw [pyMax_eq_max]
      exact max_eq_left (by linarith)
    have hmx : pyMin (3/2 * g) 1 = min (3/2 * g) 1 := pyMin_eq_min _ _
    rw [hmn, hmx] at hval
    rw [hval]
    exact blockValue_bounds gto img mask (7/10 * g) (min (3/2 * g) 1)
      (le_min (by linarith) hg1) (i, j)

/-- C5 counterexample: on a 1×1 image `nblocks = 0`, no block is ever
computed, and the returned grid keeps its `numpy.zeros` initial value 0, which
lies below `0.7 · g` for the global threshold `g = 1/2`. -/
theorem C5_counterexample :
    get_adaptive_threshold (fun _ _ => 0) imgW maskAll (1/2) 0 0 = 0 ∧
    ¬ (7/10 * (1/2 : ℚ) ≤ 0) :=
  ⟨rfl, by norm_num⟩

/-- A concrete 50×50 zero image. -/
def img50 : Img := ⟨50, 50, fun _ _ => 0⟩

/-- C5 witness: a 50×50 image with a block thresholder returning 2 and global
threshold 1/2; the pixel (0,0) is clamped into `[0.35, min(0.75, 1)]`. -/
theorem C5_adaptive_shape_and_range_witness :
    7/10 * (1/2 : ℚ) ≤ get_adaptive_threshold (fun _ _ => 2) img50 maskAll (1/2) 0 0 ∧
    get_adaptive_threshold (fun _ _ => 2) img50 maskAll (1/2) 0 0 ≤ min (3/2 * (1/2 : ℚ)) 1 :=
  (C5_adaptive_shape_and_range (fun _ _ => 2) img50 maskAll (1/2) (le_refl 50)
    (le_refl 50) (by norm_num) (by norm_num)).2.2 0 (by norm_num [img50]) 0
    (by norm_num [img50])

theorem le_foldl_max (l : List ℕ) (a : ℕ) :
    a ≤ l.foldl max a ∧ ∀ x ∈ l, x ≤ l.foldl max a := by
  induction l generalizing a with
  | nil => exact ⟨le_refl a, by simp⟩
  | cons y t ih =>
    refine ⟨le_trans (le_max_left a y) (ih (max a y)).1, ?_⟩
    intro x hx
    rcases List.mem_cons.mp hx with rfl | hx2
    · exact le_trans (le_max_right a x) (ih (max a x)).1
    · exact (ih (max a y)).2 x hx2

theorem le_maxLabel (lbl : Labels) (m n r c : ℕ) (hr : r < m) (hc : c < n) :
    lbl r c ≤ maxLabel lbl m n := by
  unfold maxLabel
  exact (le_foldl_max _ 0).2 _
    (List.mem_bind.mpr ⟨r, List.mem_range.mpr hr,
      List.mem_map.mpr ⟨c, List.mem_range.mpr hc, rfl⟩⟩)

theorem pairwise_head?_le (l : List ℕ) (hp : l.Pairwise (· < ·)) (a x : ℕ)
    (hh : l.head? = some a) (hx : x ∈ l) : a ≤ x := by
  cases l with
  | nil => cases hx
  | cons y t =>
    obtain rfl : y = a := by simpa using hh
    rcases List.mem_cons.mp hx with rfl | hx2
    · exact le_refl x
    · exact ((List.pairwise_cons.mp hp).1 x hx2).le

theorem pairwise_le_getLast? (l : List ℕ) (hp : l.Pairwise (· < ·)) (b x : ℕ)
    (hh : l.getLast? = some b) (hx : x ∈ l) : x ≤ b := by
  induction l with
  | nil => cases hx
  | cons y t ih =>
    cases t with
    | nil =>
      have h1 : y = b := by simpa using hh
      have h2 : x = y := by simpa using hx
      omega
    | cons z t2 =>
      rw [List.getLast?_cons_cons] at hh
      rcases List.mem_cons.mp hx with rfl | hx2
      · have hb : b ∈ z :: t2 := List.mem_of_mem_getLast? hh
        exact ((List.pairwise_cons.mp hp).1 b hb).le
      · exact ih (List.pairwise_cons.mp hp).2 hh hx2

theorem mem_rowsWith (lbl : Labels) (m n i r c : ℕ) (hr : r < m) (hc : c < n)
    (hl : lbl r c = i) : r ∈ rowsWith lbl m n i := by
  unfold rowsWith
  rw [List.mem_filter]
  refine ⟨List.mem_range.mpr hr, ?_⟩
  rw [List.any_eq_true]
  exact ⟨c, List.mem_range.mpr hc, by simp [hl]⟩

theorem mem_colsWith (lbl : Labels) (m n i r c : ℕ) (hr : r < m) (hc : c < n)
    (hl : lbl r c = i) : c ∈ colsWith lbl m n i := by
  unfold colsWith
  rw [List.mem_filter]
  refine ⟨List.mem_range.mpr hc, ?_⟩
  rw [List.any_eq_true]
  exact ⟨r, List.mem_range.mpr hr, by simp [hl]⟩

theorem extentOf_bounds (lbl : Labels) (m n i r c : ℕ) (hr : r < m) (hc : c < n)
    (hl : lbl r c = i) :
    ∃ r0 r1 c0 c1, extentOf lbl m n i = some (r0, r1, c0, c1) ∧
      r0 ≤ r ∧ r ≤ r1 ∧ c0 ≤ c ∧ c ≤ c1 := by
  have hrm := mem_rowsWith lbl m n i r c hr hc hl
  have hcm := mem_colsWith lbl m n i r c hr hc hl
  have hpr : (rowsWith lbl m n i).Pairwise (· < ·) := (List.pairwise_lt_range m).filter _
  have hpc : (colsWith lbl m n i).Pairwise (· < ·) := (List.pairwise_lt_range n).filter _
  cases h0 : (rowsWith lbl m n i).head? with
  | none => rw [List.head?_eq_none_iff.mp h0] at hrm; cases hrm
  | some r0 =>
  cases h1 : (rowsWith lbl m n i).getLast? with
  | none => rw [List.getLast?_eq_none_iff.mp h1] at hrm; cases hrm
  | some r1 =>
  cases h2 : (colsWith lbl m n i).head? with
  | none => rw [List.head?_eq_none_iff.mp h2] at hcm; cases hcm
  | some c0 =>
  cases h3 : (colsWith lbl m n i).getLast? with
  | none => rw [List.getLast?_eq_none_iff.mp h3] at hcm; cases hcm
  | some c1 =>
  refine ⟨r0, r1, c0, c1, ?_, pairwise_head?_le _ hpr r0 r h0 hrm,
    pairwise_le_getLast? _ hpr r1 r h1 hrm, pairwise_head?_le _ hpc c0 c h2 hcm,
    pairwise_le_getLast? _ hpc c1 c h3 hcm⟩
  unfold extentOf
  rw [h0, h1, h2, h3]

theorem perObjectStep_no_write (gto : List ℚ → ℚ) (img : Img) (mask : Mask)
    (lbl : Labels) (acc : ℕ → ℕ → ℚ) (k r c : ℕ)
    (h : lbl r c ≠ k + 1 ∨ mask r c = false) :
    perObjectStep gto img mask lbl acc k r c = acc r c := by
  unfold perObjectStep
  cases hext : extentOf lbl img.m img.n (k + 1) with
  | none => rfl
  | some bb =>
    obtain ⟨r0, r1, c0, c1⟩ := bb
    refine if_neg ?_
    rintro ⟨-, -, -, -, hm, hlk⟩
    rcases h with h | h
    · exact h hlk
    · rw [h] at hm
      exact absurd hm (by simp)

theorem foldl_perObjectStep_no_write (gto : List ℚ → ℚ) (img : Img)
    (mask : Mask) (lbl : Labels) (L : List ℕ) (acc : ℕ → ℕ → ℚ) (r c : ℕ)
    (h : ∀ k ∈ L, lbl r c ≠ k + 1 ∨ mask r c = false) :
    (L.foldl (perObjectStep gto img mask lbl) acc) r c = acc r c := by
  induction L generalizing acc with
  | nil => rfl
  | cons hd tl ih =>
    rw [List.foldl_cons, ih _ fun k hk => h k (List.mem_cons_of_mem hd hk)]
    exact perObjectStep_no_write gto img mask lbl acc hd r c (h hd (by simp))

theorem foldl_perObjectStep_unique (gto : List ℚ → ℚ) (img : Img) (mask : Mask)
    (lbl : Labels) (L : List ℕ) (acc : ℕ → ℕ → ℚ) (r c k0 : ℕ)
    (hmem : k0 ∈ L)
    (hw : ∀ acc2 : ℕ → ℕ → ℚ, perObjectStep gto img mask lbl acc2 k0 r c =
      gto (region_sample lbl img mask (k0 + 1)))
    (hu : ∀ k ∈ L, k ≠ k0 → lbl r c ≠ k + 1 ∨ mask r c = false) :
    (L.foldl (perObjectStep gto img mask lbl) acc) r c =
      gto (region_sample lbl img mask (k0 + 1)) := by
  induction L generalizing acc with
  | nil => cases hmem
  | cons hd tl ih =>
    rw [List.foldl_cons]
    by_cases htl : k0 ∈ tl
    · exact ih _ htl fun k hk hne => hu k (List.mem_cons_of_mem hd hk) hne
    · have hhd : hd = k0 := by
        rcases List.mem_cons.mp hmem with h | h
        · exact h.symm
        · exact absurd h htl
      subst hhd
      rw [foldl_perObjectStep_no_write gto img mask lbl tl _ r c
        fun k hk => hu k (List.mem_cons_of_mem _ hk) fun hkk => htl (hkk ▸ hk)]
      exact hw acc

/-- C6: in the grid of the per-object thresholder, every pixel outside all
labeled regions — and every masked-out pixel, in particular every pixel of an
object whose mask is empty inside its bounding box — keeps the initial value
1.0, and every masked pixel of region `i` carries the scalar the Global
Algorithm Library (`gto`) returns on the region's masked bounding-box sample
`image[extent][mask AND labels == i]`. -/
theorem C6_per_object_grid (gto : List ℚ → ℚ) (img : Img) (mask : Mask)
    (lbl : Labels) (t : ℚ) (r c : ℕ) (hr : r < img.m) (hc : c < img.n) :
    ((lbl r c = 0 ∨ mask r c = false) →
      get_per_object_threshold gto img mask lbl t r c = 1) ∧
    (lbl r c ≠ 0 → mask r c = true →
      get_per_object_threshold gto img mask lbl t r c =
        gto (region_sample lbl img mask (lbl r c))) := by
  constructor
  · intro h
    unfold get_per_object_threshold
    apply foldl_perObjectStep_no_write
    intro k hk
    rcases h with h | h
    · left
      rw [h]
      omega
    · right
      exact h
  · intro h0 hm
    unfold get_per_object_threshold
    obtain ⟨r0, r1, c0, c1, hext, hb1, hb2, hb3, hb4⟩ :=
      extentOf_bounds lbl img.m img.n (lbl r c) r c hr hc rfl
    have hi1 : lbl r c - 1 + 1 = lbl r c := by omega
    have hmemL : lbl r c - 1 ∈ List.range (maxLabel lbl img.m img.n) := by
      rw [List.mem_range]
      have hle := le_maxLabel lbl img.m img.n r c hr hc
      omega
    rw [← hi1]
    apply foldl_perObjectStep_unique gto img mask lbl _ _ r c (lbl r c - 1) hmemL
    · intro acc2
      unfold perObjectStep
      rw [hi1, hext]
      exact if_pos ⟨hb1, hb2, hb3, hb4, hm, rfl⟩
    · intro k hk hne
      left
      omega

/-- A 2×2 label matrix with the single object 1 at pixel (0,0). -/
def lbl1 : Labels := fun r c => if r = 0 ∧ c = 0 then 1 else 0

/-- A concrete 2×2 image. -/
def img2 : Img := ⟨2, 2, fun r c => (r : ℚ) + c⟩

/-- C6 witness: the masked pixel (0,0) of object 1 receives the thresholder's
value on the object's masked bounding-box sample. -/
theorem C6_per_object_grid_witness :
    get_per_object_threshold List.sum img2 maskAll lbl1 0 0 0 =
      List.sum (region_sample lbl1 img2 maskAll (lbl1 0 0)) :=
  (C6_per_object_grid List.sum img2 maskAll lbl1 0 0 0 (by decide) (by decide)).2
    (by decide) rfl

/-- One pixel record: intensity, mask bit, and the per-pixel threshold value
(a scalar threshold corresponds to the constant record list; permuting the
pixel positions of image, mask and threshold together is permuting this
list). -/
structure Pix where
  v : ℚ
  msk : Bool
  t : ℚ

/-- numpy.var: the population variance (mean of squared deviations). -/
def npVar (l : List ℚ) : ℚ :=
  (l.map fun x => (x - l.sum / l.length) ^ 2).sum / l.length

/-- `image[mask]` of `weighted_variance`, with the aligned thresholds
(`threshold = threshold[mask]`, line 447). -/
def wvMasked (l : List Pix) : List Pix := l.filter fun p => p.msk

/-- Line 440: `minval = numpy.max(image[mask]) / 256`. -/
def wvMinval (l : List Pix) : ℚ := npMax ((wvMasked l).map fun p => p.v) / 256

/-- Lines 443-444: the clamped private copy of the masked pixels. -/
def wvClamped (l : List Pix) : List Pix :=
  (wvMasked l).map fun p => ⟨if p.v < wvMinval l then wvMinval l else p.v, p.msk, p.t⟩

/-- Line 448: `fg = log2(clamped_image[clamped_image >= threshold])`. -/
def wvFg (olog2 : ℚ → ℚ) (l : List Pix) : List ℚ :=
  ((wvClamped l).filter fun p => decide (p.t ≤ p.v)).map fun p => olog2 p.v

/-- Line 449: `bg = log2(clamped_image[clamped_image < threshold])`. -/
def wvBg (olog2 : ℚ → ℚ) (l : List Pix) : List ℚ :=
  ((wvClamped l).filter fun p => decide (p.v < p.t)).map fun p => olog2 p.v

/-- `weighted_variance` (lines 433-457): the pixel-count-weighted average of
the foreground and background variances of the log-transformed clamped masked
pixels; `olog2` abstracts `numpy.log2`. -/
def weighted_variance (olog2 : ℚ → ℚ) (l : List Pix) : ℚ :=
  if (l.any fun p => p.msk) = false then 0
  else if wvMinval l = 0 then 0
  else if (wvFg olog2 l).length = 0 then npVar (wvBg olog2 l)
  else if (wvBg olog2 l).length = 0 then npVar (wvFg olog2 l)
  else (npVar (wvFg olog2 l) * (wvFg olog2 l).length +
        npVar (wvBg olog2 l) * (wvBg olog2 l).length) /
       ((wvFg olog2 l).length + (wvBg olog2 l).length)

/-- Line 486: `numpy.sum(mask)`. -/
def soeMaskedCount (l : List Pix) : ℕ := l.countP fun p => p.msk

/-- Line 468: `minval = numpy.max(image[mask]) / 256`. -/
def soeMinval (l : List Pix) : ℚ :=
  npMax ((l.filter fun p => p.msk).map fun p => p.v) / 256

/-- Lines 471-472: the clamped copy of the FULL image. -/
def soeClamped (l : List Pix) : List Pix :=
  l.map fun p => ⟨if p.v < soeMinval l then soeMinval l else p.v, p.msk, p.t⟩

/-- Modelled from the spec: line 476 calls `smooth_with_noise(clamped_image,
8)` from `cellprofiler.cpmath.smooth`, which is not under src/; spec §4.5
describes it as 8-bit dithered smoothing of the intensities, modelled here as
an arbitrary elementwise map `osmooth` over which every theorem quantifies. -/
def soeSmoothed (osmooth : ℚ → ℚ) (l : List Pix) : List Pix :=
  (soeClamped l).map fun p => ⟨osmooth p.v, p.msk, p.t⟩

/-- Line 482: `upper = log(im_max, 2)`. -/
def soeUpper (olog2 osmooth : ℚ → ℚ) (l : List Pix) : ℚ :=
  olog2 (npMax ((soeSmoothed osmooth l).map fun p => p.v))

/-- Line 483: `lower = log(im_min, 2)`. -/
def soeLower (olog2 osmooth : ℚ → ℚ) (l : List Pix) : ℚ :=
  olog2 (npMin ((soeSmoothed osmooth l).map fun p => p.v))

/-- Lines 490-492: the log-transformed foreground sample
`image[logical_and(mask, image >= threshold)]`. -/
def soeFg (olog2 osmooth : ℚ → ℚ) (l : List Pix) : List ℚ :=
  ((soeSmoothed osmooth l).filter fun p => p.msk && decide (p.t ≤ p.v)).map
    fun p => olog2 p.v

/-- Lines 491-493: the log-transformed background sample. -/
def soeBg (olog2 osmooth : ℚ → ℚ) (l : List Pix) : List ℚ :=
  ((soeSmoothed osmooth l).filter fun p => p.msk && decide (p.v < p.t)).map
    fun p => olog2 p.v

/-- Lines 496 and 501: the foreground histogram with empty bins dropped. -/
def soeHfg (olog2 osmooth : ℚ → ℚ) (l : List Pix) : List ℕ :=
  (histogramCounts (soeLower olog2 osmooth l) (soeUpper olog2 osmooth l) 256
    (soeFg olog2 osmooth l)).filter fun k => decide (0 < k)

/-- Lines 497 and 502: the background histogram with empty bins dropped. -/
def soeHbg (olog2 osmooth : ℚ → ℚ) (l : List Pix) : List ℕ :=
  (histogramCounts (soeLower olog2 osmooth l) (soeUpper olog2 osmooth l) 256
    (soeBg olog2 osmooth l)).filter fun k => decide (0 < k)

/-- Lines 503-515 for one side: substitute `ones((1,))` for an empty
histogram, normalize to probabilities, and sum `p · log2 p`. -/
def entropyOf (olog2 : ℚ → ℚ) (h : List ℕ) : ℚ :=
  (let h2 := if h.length = 0 then [1] else h
   (h2.map fun k => (k : ℚ) / (h2.sum : ℚ) * olog2 ((k : ℚ) / (h2.sum : ℚ))).sum)

/-- `sum_of_entropies` (lines 459-515); `olog2` abstracts `log2`, `osmooth`
the external dithered smoothing. -/
def sum_of_entropies (olog2 osmooth : ℚ → ℚ) (l : List Pix) : ℚ :=
  if (l.any fun p => p.msk) = false then 0
  else if soeMinval l = 0 then 0
  else if soeUpper olog2 osmooth l = soeLower olog2 osmooth l then
    olog2 (soeMaskedCount l : ℚ)
  else
    entropyOf olog2 (soeHfg olog2 osmooth l) +
    entropyOf olog2 (soeHbg olog2 osmooth l)

theorem perm_any (l l2 : List Pix) (h : l.Perm l2) (f : Pix → Bool) :
    l.any f = l2.any f := by
  cases hb : l2.any f
  · rw [List.any_eq_false] at hb ⊢
    exact fun x hx => hb x (h.mem_iff.mp hx)
  · rw [List.any_eq_true] at hb ⊢
    obtain ⟨x, hx, hfx⟩ := hb
    exact ⟨x, h.mem_iff.mpr hx, hfx⟩

theorem foldl_max_le_q (xs : List ℚ) (a : ℚ) :
    a ≤ xs.foldl max a ∧ ∀ x ∈ xs, x ≤ xs.foldl max a := by
  induction xs generalizing a with
  | nil => exact ⟨le_refl a, by simp⟩
  | cons y t ih =>
    refine ⟨le_trans (le_max_left a y) (ih (max a y)).1, ?_⟩
    intro x hx
    rcases List.mem_cons.mp hx with rfl | hx2
    · exact le_trans (le_max_right a x) (ih (max a x)).1
    · exact (ih (max a y)).2 x hx2

theorem foldl_max_mem_q (xs : List ℚ) (a : ℚ) :
    xs.foldl max a = a ∨ xs.foldl max a ∈ xs := by
  induction xs generalizing a with
  | nil => exact Or.inl rfl
  | cons y t ih =>
    rw [List.foldl_cons]
    rcases ih (max a y) with h | h
    · rw [h]
      rcases le_total a y with hay | hay
      · rw [max_eq_right hay]
        exact Or.inr (by simp)
      · rw [max_eq_left hay]
        exact Or.inl rfl
    · exact Or.inr (List.mem_cons_of_mem y h)

theorem foldl_min_le_q (xs : List ℚ) (a : ℚ) :
    xs.foldl min a ≤ a ∧ ∀ x ∈ xs, xs.foldl min a ≤ x := by
  induction xs generalizing a with
  | nil => exact ⟨le_refl a, by simp⟩
  | cons y t ih =>
    refine ⟨le_trans (ih (min a y)).1 (min_le_left a y), ?_⟩
    intro x hx
    rcases List.mem_cons.mp hx with rfl | hx2
    · exact le_trans (ih (min a x)).1 (min_le_right a x)
    · exact (ih (min a y)).2 x hx2

theorem foldl_min_mem_q (xs : List ℚ) (a : ℚ) :
    xs.foldl min a = a ∨ xs.foldl min a ∈ xs := by
  induction xs generalizing a with
  | nil => exact Or.inl rfl
  | cons y t ih =>
    rw [List.foldl_cons]
    rcases ih (min a y) with h | h
    · rw [h]
      rcases le_total a y with hay | hay
      · rw [min_eq_left hay]
        exact Or.inl rfl
      · rw [min_eq_right hay]
        exact Or.inr (by simp)
    · exact Or.inr (List.mem_cons_of_mem y h)

theorem npMax_mem (l : List ℚ) (hne : l ≠ []) : npMax l ∈ l := by
  cases l with
  | nil => exact absurd rfl hne
  | cons x xs =>
    show xs.foldl max x ∈ x :: xs
    rcases foldl_max_mem_q xs x with h | h
    · rw [h]; simp
    · exact List.mem_cons_of_mem x h

theorem le_npMax (l : List ℚ) (x : ℚ) (hx : x ∈ l) : x ≤ npMax l := by
  cases l with
  | nil => cases hx
  | cons y xs =>
    show x ≤ xs.foldl max y
    rcases List.mem_cons.mp hx with rfl | hx2
    · exact (foldl_max_le_q xs x).1
    · exact (foldl_max_le_q xs y).2 x hx2

theorem npMin_mem (l : List ℚ) (hne : l ≠ []) : npMin l ∈ l := by
  cases l with
  | nil => exact absurd rfl hne
  | cons x xs =>
    show xs.foldl min x ∈ x :: xs
    rcases foldl_min_mem_q xs x with h | h
    · rw [h]; simp
    · exact List.mem_cons_of_mem x h

theorem npMin_le (l : List ℚ) (x : ℚ) (hx : x ∈ l) : npMin l ≤ x := by
  cases l with
  | nil => cases hx
  | cons y xs =>
    show xs.foldl min y ≤ x
    rcases List.mem_cons.mp hx with rfl | hx2
    · exact (foldl_min_le_q xs x).1
    · exact (foldl_min_le_q xs y).2 x hx2

theorem npMax_perm (l l2 : List ℚ) (h : l.Perm l2) : npMax l = npMax l2 := by
  by_cases hne : l = []
  · subst hne
    rw [List.Perm.eq_nil h.symm]
  · have hne2 : l2 ≠ [] := fun hc => hne (List.Perm.eq_nil (hc ▸ h))
    exact le_antisymm (le_npMax l2 (npMax l) (h.mem_iff.mp (npMax_mem l hne)))
      (le_npMax l (npMax l2) (h.mem_iff.mpr (npMax_mem l2 hne2)))

theorem npMin_perm (l l2 : List ℚ) (h : l.Perm l2) : npMin l = npMin l2 := by
  by_cases hne : l = []
  · subst hne
    rw [List.Perm.eq_nil h.symm]
  · have hne2 : l2 ≠ [] := fun hc => hne (List.Perm.eq_nil (hc ▸ h))
    exact le_antisymm (npMin_le l (npMin l2) (h.mem_iff.mpr (npMin_mem l2 hne2)))
      (npMin_le l2 (npMin l) (h.mem_iff.mp (npMin_mem l hne)))

theorem wvMasked_perm (l l2 : List Pix) (h : l.Perm l2) :
    (wvMasked l).Perm (wvMasked l2) := h.filter _

theorem wvMinval_perm (l l2 : List Pix) (h : l.Perm l2) :
    wvMinval l = wvMinval l2 := by
  unfold wvMinval
  rw [npMax_perm _ _ ((wvMasked_perm l l2 h).map _)]

theorem wvClamped_perm (l l2 : List Pix) (h : l.Perm l2) :
    (wvClamped l).Perm (wvClamped l2) := by
  unfold wvClamped
  rw [wvMinval_perm l l2 h]
  exact (wvMasked_perm l l2 h).map _

theorem wvFg_perm (olog2 : ℚ → ℚ) (l l2 : List Pix) (h : l.Perm l2) :
    (wvFg olog2 l).Perm (wvFg olog2 l2) :=
  ((wvClamped_perm l l2 h).filter _).map _

theorem wvBg_perm (olog2 : ℚ → ℚ) (l l2 : List Pix) (h : l.Perm l2) :
    (wvBg olog2 l).Perm (wvBg olog2 l2) :=
  ((wvClamped_perm l l2 h).filter _).map _

theorem npVar_perm (l l2 : List ℚ) (h : l.Perm l2) : npVar l = npVar l2 := by
  unfold npVar
  rw [h.sum_eq, h.length_eq, List.Perm.sum_eq (List.Perm.map _ h)]

theorem weighted_variance_perm_eq (olog2 : ℚ → ℚ) (l l2 : List Pix)
    (h : l.Perm l2) : weighted_variance olog2 l = weighted_variance olog2 l2 := by
  unfold weighted_variance
  rw [perm_any l l2 h, wvMinval_perm l l2 h,
    (wvFg_perm olog2 l l2 h).length_eq, (wvBg_perm olog2 l l2 h).length_eq,
    npVar_perm _ _ (wvFg_perm olog2 l l2 h), npVar_perm _ _ (wvBg_perm olog2 l l2 h)]

theorem soeMinval_perm (l l2 : List Pix) (h : l.Perm l2) :
    soeMinval l = soeMinval l2 := by
  unfold soeMinval
  rw [npMax_perm _ _ ((h.filter _).map _)]

theorem soeClamped_perm (l l2 : List Pix) (h : l.Perm l2) :
    (soeClamped l).Perm (soeClamped l2) := by
  unfold soeClamped
  rw [soeMinval_perm l l2 h]
  exact h.map _

theorem soeSmoothed_perm (osmooth : ℚ → ℚ) (l l2 : List Pix) (h : l.Perm l2) :
    (soeSmoothed osmooth l).Perm (soeSmoothed osmooth l2) :=
  (soeClamped_perm l l2 h).map _

theorem soeUpper_perm (olog2 osmooth : ℚ → ℚ) (l l2 : List Pix) (h : l.Perm l2) :
    soeUpper olog2 osmooth l = soeUpper olog2 osmooth l2 := by
  unfold soeUpper
  rw [npMax_perm _ _ ((soeSmoothed_perm osmooth l l2 h).map _)]

theorem soeLower_perm (olog2 osmooth : ℚ → ℚ) (l l2 : List Pix) (h : l.Perm l2) :
    soeLower olog2 osmooth l = soeLower olog2 osmooth l2 := by
  unfold soeLower
  rw [npMin_perm _ _ ((soeSmoothed_perm osmooth l l2 h).map _)]

theorem soeFg_perm (olog2 osmooth : ℚ → ℚ) (l l2 : List Pix) (h : l.Perm l2) :
    (soeFg olog2 osmooth l).Perm (soeFg olog2 osmooth l2) :=
  ((soeSmoothed_perm osmooth l l2 h).filter _).map _

theorem soeBg_perm (olog2 osmooth : ℚ → ℚ) (l l2 : List Pix) (h : l.Perm l2) :
    (soeBg olog2 osmooth l).Perm (soeBg olog2 osmooth l2) :=
  ((soeSmoothed_perm osmooth l l2 h).filter _).map _

theorem histogramCounts_perm (lo hi : ℚ) (bins : ℕ) (v v2 : List ℚ)
    (h : v.Perm v2) : histogramCounts lo hi bins v = histogramCounts lo hi bins v2 := by
  unfold histogramCounts
  congr 1
  funext k
  exact h.countP_eq _

theorem soeHfg_perm_eq (olog2 osmooth : ℚ → ℚ) (l l2 : List Pix)
    (h : l.Perm l2) : soeHfg olog2 osmooth l = soeHfg olog2 osmooth l2 := by
  unfold soeHfg
  rw [soeLower_perm olog2 osmooth l l2 h, soeUpper_perm olog2 osmooth l l2 h,
    histogramCounts_perm _ _ _ _ _ (soeFg_perm olog2 osmooth l l2 h)]

theorem soeHbg_perm_eq (olog2 osmooth : ℚ → ℚ) (l l2 : List Pix)
    (h : l.Perm l2) : soeHbg olog2 osmooth l = soeHbg olog2 osmooth l2 := by
  unfold soeHbg
  rw [soeLower_perm olog2 osmooth l l2 h, soeUpper_perm olog2 osmooth l l2 h,
    histogramCounts_perm _ _ _ _ _ (soeBg_perm olog2 osmooth l l2 h)]

theorem soeMaskedCount_perm (l l2 : List Pix) (h : l.Perm l2) :
    soeMaskedCount l = soeMaskedCount l2 := h.countP_eq _

theorem sum_of_entropies_perm_eq (olog2 osmooth : ℚ → ℚ) (l l2 : List Pix)
    (h : l.Perm l2) :
    sum_of_entropies olog2 osmooth l = sum_of_entropies olog2 osmooth l2 := by
  unfold sum_of_entropies
  rw [perm_any l l2 h, soeMinval_perm l l2 h, soeUpper_perm olog2 osmooth l l2 h,
    soeLower_perm olog2 osmooth l l2 h, soeMaskedCount_perm l l2 h,
    soeHfg_perm_eq olog2 osmooth l l2 h, soeHbg_perm_eq olog2 osmooth l l2 h]

/-- C10: `weighted_variance` and `sum_of_entropies` are invariant under any
permutation of the pixel positions applied identically to the image, the mask
and the (per-pixel) threshold — both metrics depend only on the multiset of
(intensity, mask, threshold) records; this holds for every log2 oracle and
every elementwise smoothing. -/
theorem C10_metric_permutation_invariance (olog2 osmooth : ℚ → ℚ)
    (l l2 : List Pix) (h : l.Perm l2) :
    weighted_variance olog2 l = weighted_variance olog2 l2 ∧
    sum_of_entropies olog2 osmooth l = sum_of_entropies olog2 osmooth l2 :=
  ⟨weighted_variance_perm_eq olog2 l l2 h,
   sum_of_entropies_perm_eq olog2 osmooth l l2 h⟩

/-- C10 witness: swapping the two pixels of a concrete image leaves both
metrics unchanged. -/
theorem C10_metric_permutation_invariance_witness :
    weighted_variance (fun x => x) [⟨1, true, 1/2⟩, ⟨1/2, true, 1/2⟩] =
      weighted_variance (fun x => x) [⟨1/2, true, 1/2⟩, ⟨1, true, 1/2⟩] ∧
    sum_of_entropies (fun x => x) (fun x => x)
        [⟨1, true, 1/2⟩, ⟨1/2, true, 1/2⟩] =
      sum_of_entropies (fun x => x) (fun x => x)
        [⟨1/2, true, 1/2⟩, ⟨1, true, 1/2⟩] :=
  C10_metric_permutation_invariance (fun x => x) (fun x => x) _ _
    (List.Perm.swap (⟨1/2, true, 1/2⟩ : Pix) (⟨1, true, 1/2⟩ : Pix) [])

end CellProfiler
